import Mathlib

/-!
Verification of the noiseconn connection wrapper (conn.go).

The Go code wraps a raw byte stream (net.Conn) with a Noise-style
handshake-then-transport protocol.  We shallowly embed the code:

* bytes are `Nat` (values < 256 in real executions; the framing logic never
  depends on that bound except where the code masks explicitly);
* the raw stream is a pair of byte lists: `inStream` (bytes still available
  to be read) and `outStream` (bytes written so far); stream writes are
  modelled as infallible appends;
* the external collaborators (noise.HandshakeState, noise.CipherState from
  github.com/flynn/noise) are abstract capabilities, modelled as the spec
  describes them: a handshake step consumes/produces a message, may yield
  the two cipher states, and advances its own state; a cipher state is a
  pair of nonce-indexed seal/open functions plus a monotone nonce.
-/

/-- const HeaderByte = 0x80 (conn.go line 13). -/
def HeaderByte : Nat := 0x80

/-- noise.MaxMsgLen from github.com/flynn/noise: the maximum size of a
single Noise message, 65535. -/
def MaxMsgLen : Nat := 65535

/-- binary.BigEndian.PutUint32: the four big-endian bytes of `n`
(n is below 2^32 at every use site). -/
def putUint32BE (n : Nat) : List Nat :=
  [n / 2 ^ 24 % 256, n / 2 ^ 16 % 256, n / 2 ^ 8 % 256, n % 256]

/-- binary.BigEndian.Uint32 on four bytes. -/
def uint32BE (b0 b1 b2 b3 : Nat) : Nat :=
  ((b0 * 256 + b1) * 256 + b2) * 256 + b3

/-- Conn.frame (conn.go lines 161-168): fails when the payload length is at
least 1<<(8*3); otherwise produces the 4-byte header: the big-endian length
with byte 0 overwritten by the marker `HeaderByte`. -/
def frame (b : List Nat) : Option (List Nat) :=
  if 1 <<< (8 * 3) ≤ b.length then none
  else some ((putUint32BE b.length).set 0 HeaderByte)

/-- A whole encoded frame as assembled by the callers of `frame`
(hsCreate, Conn.Write): the 4-byte header followed by the payload. -/
def frameMsg (b : List Nat) : Option (List Nat) :=
  match frame b with
  | none => none
  | some hdr => some (hdr ++ b)

/-- Errors surfaced by the embedded operations.  `eof` / `unexpectedEOF`
are the io errors of readMsg, `unknownHeader` its marker failure,
`frameTooLarge` the encode failure of `frame`, `handshakeFailed` a
noise.HandshakeState rejection, `authFailed` a transport decrypt failure,
`encryptFailed` a seal failure; `hsNil`, `sendNil`, `recvNil` model the Go
nil-pointer dereferences that the code's guards make unreachable. -/
inductive Err where
  | eof | unexpectedEOF | unknownHeader | frameTooLarge
  | handshakeFailed | authFailed | encryptFailed
  | hsNil | sendNil | recvNil
deriving DecidableEq, Repr

/-- Conn.readMsg (conn.go lines 136-159), acting on the byte sequence
available from the stream.  Reads a 4-byte header (io.ReadFull: `eof` when
nothing is available, `unexpectedEOF` on a short read), rejects a bad
marker byte, zeroes byte 0, decodes the big-endian length, then reads
exactly that many payload bytes (EOF is converted to `unexpectedEOF`).
Returns the payload and the unconsumed remainder of the stream. -/
def readMsgBytes (s : List Nat) : Except Err (List Nat × List Nat) :=
  match s with
  | [] => .error .eof
  | h0 :: h1 :: h2 :: h3 :: rest =>
    if h0 ≠ HeaderByte then .error .unknownHeader
    else
      let msgSize := uint32BE 0 h1 h2 h3
      if rest.length < msgSize then .error .unexpectedEOF
      else .ok (rest.take msgSize, rest.drop msgSize)
  | _ => .error .unexpectedEOF

theorem readMsgBytes_ok_len {s msg rest : List Nat}
    (h : readMsgBytes s = .ok (msg, rest)) : rest.length + 4 ≤ s.length := by
  match s with
  | [] => simp [readMsgBytes] at h
  | [_] => simp [readMsgBytes] at h
  | [_, _] => simp [readMsgBytes] at h
  | [_, _, _] => simp [readMsgBytes] at h
  | h0 :: h1 :: h2 :: h3 :: r =>
    simp only [readMsgBytes] at h
    split at h
    · exact absurd h (by simp)
    · split at h
      · exact absurd h (by simp)
      · simp only [Except.ok.injEq, Prod.mk.injEq] at h
        obtain ⟨-, h2'⟩ := h
        subst h2'
        simp only [List.length_cons, List.length_drop]
        omega

theorem putUint32BE_roundtrip {n : Nat} (h : n < 2 ^ 24) :
    uint32BE 0 (n / 2 ^ 16 % 256) (n / 2 ^ 8 % 256) (n % 256) = n := by
  simp only [uint32BE]
  omega

theorem shiftLeft24_eq : (1 <<< (8 * 3) : Nat) = 2 ^ 24 := by
  norm_num [Nat.shiftLeft_eq]

/-- C1: encoding a payload of length < 2^24 as a frame and decoding it with
readMsg returns exactly the original payload (leaving any following stream
bytes untouched); encoding fails for payloads of length ≥ 2^24. -/
theorem frame_roundtrip (b : List Nat) :
    (b.length < 2 ^ 24 →
      ∃ enc, frameMsg b = some enc ∧
        ∀ rest, readMsgBytes (enc ++ rest) = .ok (b, rest)) ∧
    (2 ^ 24 ≤ b.length → frameMsg b = none) := by
  constructor
  · intro hlen
    have hcond : ¬ (1 <<< (8 * 3) ≤ b.length) := by rw [shiftLeft24_eq]; omega
    refine ⟨[HeaderByte, b.length / 2 ^ 16 % 256, b.length / 2 ^ 8 % 256,
        b.length % 256] ++ b, ?_, ?_⟩
    · unfold frameMsg frame
      rw [if_neg hcond]
      have hz : b.length / 2 ^ 24 % 256 = 0 := by omega
      simp [putUint32BE, hz]
    · intro rest
      have hmark : ¬ (HeaderByte ≠ HeaderByte) := by simp
      simp only [List.cons_append, List.nil_append, readMsgBytes, hmark,
        if_false, putUint32BE_roundtrip hlen]
      have hge : ¬ ((b ++ rest).length < b.length) := by simp
      rw [if_neg hge, List.take_left, List.drop_left]
  · intro hlen
    have hcond : 1 <<< (8 * 3) ≤ b.length := by rw [shiftLeft24_eq]; omega
    unfold frameMsg frame
    rw [if_pos hcond]

theorem frame_roundtrip_witness :
    (([7, 9] : List Nat).length < 2 ^ 24 ∧
      ∃ enc, frameMsg [7, 9] = some enc ∧
        ∀ rest, readMsgBytes (enc ++ rest) = .ok ([7, 9], rest)) ∧
    (2 ^ 24 ≤ (List.replicate (2 ^ 24) 0 : List Nat).length ∧
      frameMsg (List.replicate (2 ^ 24) 0) = none) := by
  refine ⟨⟨by norm_num, (frame_roundtrip [7, 9]).1 (by norm_num)⟩,
    ⟨by rw [List.length_replicate],
      (frame_roundtrip (List.replicate (2 ^ 24) 0)).2
        (by rw [List.length_replicate])⟩⟩

/-- noise.CipherState (the CipherContext capability of the spec): a pair of
nonce-indexed seal/open functions plus the monotone nonce.  `encAt n p`
is the sealing of plaintext `p` at nonce `n` (an error models ErrMaxNonce),
`decAt n ct` the opening of ciphertext `ct` at nonce `n` (an error models
an authentication failure).  Encrypt/Decrypt advance the nonce only on
success, as the library does. -/
structure CipherState where
  nonce : Nat
  encAt : Nat → List Nat → Except Unit (List Nat)
  decAt : Nat → List Nat → Except Unit (List Nat)

/-- noise.HandshakeState (the Handshaker capability of the spec), with
abstract internal state `σ`.  `readMessage st msg` consumes one handshake
message and yields the embedded payload, optionally the two cipher states,
and the advanced internal state; `writeMessage st payload` produces the
next handshake message likewise. -/
structure HSModel (σ : Type) where
  readMessage : σ → List Nat →
    Except Unit (List Nat × Option CipherState × Option CipherState × σ)
  writeMessage : σ → List Nat →
    Except Unit (List Nat × Option CipherState × Option CipherState × σ)

/-- The Conn struct (conn.go lines 21-30).  The embedded net.Conn is the
pair `inStream` (bytes still readable) / `outStream` (bytes written so
far).  `readBuf` is the pending decrypted-but-undelivered plaintext; the
scratch buffers readMsgBuf/writeMsgBuf are reset at the start of every use
and are modelled by local values. -/
structure Conn (σ : Type) where
  inStream : List Nat
  outStream : List Nat
  initiator : Bool
  hs : Option σ
  hsResponsibility : Bool
  readBuf : List Nat
  send : Option CipherState
  recv : Option CipherState

/-- NewConn (conn.go lines 36-47): fresh handshake state, turn
responsibility initialised from the initiator role, no cipher states. -/
def NewConn (σ : Type) (h0 : σ) (initiator : Bool) (input : List Nat) :
    Conn σ :=
  { inStream := input, outStream := [], initiator := initiator,
    hs := some h0, hsResponsibility := initiator, readBuf := [],
    send := none, recv := none }

/-- Conn.setCipherStates (conn.go lines 49-55). -/
def setCipherStates (c : Conn σ) (cs1 cs2 : Option CipherState) : Conn σ :=
  if c.initiator then { c with send := cs1, recv := cs2 }
  else { c with send := cs2, recv := cs1 }

/-- Conn.readMsg acting on the Conn (conn.go lines 136-159): `readMsgBytes`
plus the stream consumption.  A bad marker is detected after the 4 header
bytes were consumed; the io error cases consume whatever was available. -/
def Conn.readMsgC (c : Conn σ) : Except Err (List Nat) × Conn σ :=
  match readMsgBytes c.inStream with
  | .error .unknownHeader =>
    (.error .unknownHeader, { c with inStream := c.inStream.drop 4 })
  | .error e => (.error e, { c with inStream := [] })
  | .ok (msg, rest) => (.ok msg, { c with inStream := rest })

/-- Conn.hsRead (conn.go lines 57-73): decode one frame, feed it to the
Handshaker; on success append the embedded payload to readBuf, assign the
(possibly absent) cipher states, take send responsibility, and discard the
handshaker when a send cipher appeared.  On a Handshaker rejection the
library returns a nil output slice, so readBuf is cleared. -/
def hsRead (M : HSModel σ) (c : Conn σ) : Except Err Unit × Conn σ :=
  match c.hs with
  | none => (.error .hsNil, c)
  | some h =>
    match c.readMsgC with
    | (.error e, c1) => (.error e, c1)
    | (.ok msg, c1) =>
      match M.readMessage h msg with
      | .error _ => (.error .handshakeFailed, { c1 with readBuf := [] })
      | .ok (payload, cs1, cs2, h2) =>
        let c2 := setCipherStates
          { c1 with readBuf := c1.readBuf ++ payload } cs1 cs2
        let c3 := { c2 with hsResponsibility := true }
        let c4 := if c3.send.isSome then { c3 with hs := none }
                  else { c3 with hs := some h2 }
        (.ok (), c4)

/-- Conn.hsCreate (conn.go lines 170-183): ask the Handshaker to produce
the next message with the given embedded payload; assign the (possibly
absent) cipher states, hand over send responsibility, discard the
handshaker when a send cipher appeared, and finally frame the message (a
frame failure is reported after those state changes, as in the source).
Returns the framed wire bytes. -/
def hsCreate (M : HSModel σ) (c : Conn σ) (payload : List Nat) :
    Except Err (List Nat) × Conn σ :=
  match c.hs with
  | none => (.error .hsNil, c)
  | some h =>
    match M.writeMessage h payload with
    | .error _ => (.error .handshakeFailed, c)
    | .ok (msg, cs1, cs2, h2) =>
      let c2 := setCipherStates c cs1 cs2
      let c3 := { c2 with hsResponsibility := false }
      let c4 := if c3.send.isSome then { c3 with hs := none }
                else { c3 with hs := some h2 }
      match frame msg with
      | none => (.error .frameTooLarge, c4)
      | some hdr => (.ok (hdr ++ msg), c4)

/-- The handleBuffered closure of Conn.Read (conn.go lines 76-84): when the
pending plaintext is non-empty, deliver its first min(blen, len) bytes and
drop them from the buffer; otherwise report nothing buffered. -/
def handleBuffered (blen : Nat) (c : Conn σ) :
    Option (List Nat × Conn σ) :=
  if c.readBuf.length = 0 then none
  else
    let n := min blen c.readBuf.length
    some (c.readBuf.take n, { c with readBuf := c.readBuf.drop n })

theorem readMsgC_ok_len {c c1 : Conn σ} {msg : List Nat}
    (h : c.readMsgC = (.ok msg, c1)) :
    c1.inStream.length + 4 ≤ c.inStream.length ∧
      readMsgBytes c.inStream = .ok (msg, c1.inStream) := by
  unfold Conn.readMsgC at h
  split at h
  · exact absurd h (by simp)
  · exact absurd h (by simp)
  · rename_i msg2 rest heq
    simp only [Prod.mk.injEq, Except.ok.injEq] at h
    obtain ⟨h1, h2⟩ := h
    subst h1 h2
    exact ⟨readMsgBytes_ok_len heq, heq⟩

theorem hsRead_ok_len {M : HSModel σ} {c c1 : Conn σ} {u : Unit}
    (h : hsRead M c = (.ok u, c1)) :
    c1.inStream.length + 4 ≤ c.inStream.length := by
  unfold hsRead at h
  split at h
  · exact absurd h (by simp)
  · rename_i h_
    split at h
    · exact absurd h (by simp)
    · rename_i msg cmid heq
      split at h
      · exact absurd h (by simp)
      · simp only [Prod.mk.injEq] at h
        obtain ⟨-, h2⟩ := h
        have hlen := (readMsgC_ok_len heq).1
        subst h2
        simp only [setCipherStates]
        split <;> split <;> simpa using hlen

theorem hsCreate_inStream (M : HSModel σ) (c : Conn σ) (payload : List Nat) :
    (hsCreate M c payload).2.inStream = c.inStream := by
  unfold hsCreate
  split
  · rfl
  · split
    · rfl
    · simp only [setCipherStates]
      split <;> split <;> split <;> rfl

/-- The transport-phase loop of Conn.Read (conn.go lines 113-132): decode
one frame, decrypt with recv (the library clears the output slice on an
authentication failure, hence readBuf := []; the nonce advances only on
success), append the plaintext to readBuf, deliver once something is
buffered, repeat otherwise. -/
def readTransportLoop (c : Conn σ) (blen : Nat) :
    Except Err (List Nat) × Conn σ :=
  match hm : c.readMsgC with
  | (.error e, c1) => (.error e, c1)
  | (.ok msg, c1) =>
    match c1.recv with
    | none => (.error .recvNil, c1)
    | some cs =>
      match cs.decAt cs.nonce msg with
      | .error _ => (.error .authFailed, { c1 with readBuf := [] })
      | .ok pt =>
        let c2 := { c1 with readBuf := c1.readBuf ++ pt,
                            recv := some { cs with nonce := cs.nonce + 1 } }
        match handleBuffered blen c2 with
        | some (bs, c3) => (.ok bs, c3)
        | none => readTransportLoop c2 blen
termination_by c.inStream.length
decreasing_by
  simp_wf
  have := (readMsgC_ok_len hm).1
  omega

/-- The handshake-phase loop of Conn.Read (conn.go lines 90-111): while the
handshaker is present, send an empty-payload handshake leg when it is our
turn (falling through to the transport loop if that completes the
handshake), then receive one leg and deliver any embedded payload. -/
def readHandshakeLoop (M : HSModel σ) (c : Conn σ) (blen : Nat) :
    Except Err (List Nat) × Conn σ :=
  match c.hs with
  | none => readTransportLoop c blen
  | some _ =>
    if c.hsResponsibility then
      match hc : hsCreate M c [] with
      | (.error e, c1) => (.error e, c1)
      | (.ok wire, c1) =>
        let c2 := { c1 with outStream := c1.outStream ++ wire }
        match c2.hs with
        | none => readTransportLoop c2 blen
        | some _ =>
          match hr : hsRead M c2 with
          | (.error e, c3) => (.error e, c3)
          | (.ok _, c3) =>
            match handleBuffered blen c3 with
            | some (bs, c4) => (.ok bs, c4)
            | none => readHandshakeLoop M c3 blen
    else
      match hr : hsRead M c with
      | (.error e, c3) => (.error e, c3)
      | (.ok _, c3) =>
        match handleBuffered blen c3 with
        | some (bs, c4) => (.ok bs, c4)
        | none => readHandshakeLoop M c3 blen
termination_by c.inStream.length
decreasing_by
  · simp_wf
    have h1 := hsRead_ok_len hr
    have h2 : c1.inStream = c.inStream := by
      have h0 := hsCreate_inStream M c []
      rw [hc] at h0
      exact h0
    simp only at h1
    rw [h2] at h1
    omega
  · simp_wf
    have h1 := hsRead_ok_len hr
    omega

/-- Conn.Read (conn.go lines 75-133): deliver buffered plaintext first;
otherwise drive the handshake loop and then the transport loop.  The
destination buffer is represented by its capacity `blen`; the returned
value is the list of bytes delivered into it. -/
def Conn.Read (M : HSModel σ) (c : Conn σ) (blen : Nat) :
    Except Err (List Nat) × Conn σ :=
  match handleBuffered blen c with
  | some (bs, c1) => (.ok bs, c1)
  | none => readHandshakeLoop M c blen

/-- The handshake-phase loop of Conn.Write (conn.go lines 202-222): while
the handshaker is present and input remains, receive a leg when it is the
peer's turn, then (if still handshaking) embed the next
min(noise.MaxMsgLen, len) input bytes into an own handshake leg, and
count them as consumed.  An error result carries the count of bytes
consumed before the failure; a normal exit returns the count so far, the
unconsumed input and the connection, to be continued by the transport
phase. -/
def writeHSLoop (M : HSModel σ) (c : Conn σ) (b : List Nat) (n : Nat) :
    Except (Nat × Err × Conn σ) (Nat × List Nat × Conn σ) :=
  match c.hs, b with
  | none, _ => .ok (n, b, c)
  | some _, [] => .ok (n, [], c)
  | some _, x :: xs =>
    match (if c.hsResponsibility then (.ok (), c) else hsRead M c) with
    | (.error e, c1) => .error (n, e, c1)
    | (.ok _, c1) =>
      match c1.hs with
      | none => .ok (n, x :: xs, c1)
      | some _ =>
        let l := min MaxMsgLen (x :: xs).length
        match hsCreate M c1 ((x :: xs).take l) with
        | (.error e, c2) => .error (n, e, c2)
        | (.ok wire, c2) =>
          let c3 := { c2 with outStream := c2.outStream ++ wire }
          writeHSLoop M c3 ((x :: xs).drop l) (n + l)
termination_by b.length
decreasing_by
  simp_wf
  simp only [MaxMsgLen, List.length_drop, List.length_cons]
  omega

/-- The transport-phase loop of Conn.Write (conn.go lines 224-240): seal
chunks of at most noise.MaxMsgLen bytes, framing each into `acc` (the
writeMsgBuf), counting each chunk once sealed; after the last chunk the
whole accumulated buffer is written to the stream in one write.  On a seal
or framing failure the accumulated buffer is abandoned unwritten and the
count so far is returned with the error. -/
def writeTransportLoop (c : Conn σ) (b : List Nat) (n : Nat)
    (acc : List Nat) : Nat × Except Err Unit × Conn σ :=
  match b with
  | [] => (n, .ok (), { c with outStream := c.outStream ++ acc })
  | x :: xs =>
    let l := min MaxMsgLen (x :: xs).length
    match c.send with
    | none => (n, .error .sendNil, c)
    | some cs =>
      match cs.encAt cs.nonce ((x :: xs).take l) with
      | .error _ => (n, .error .encryptFailed, c)
      | .ok ct =>
        let c1 := { c with send := some { cs with nonce := cs.nonce + 1 } }
        match frame ct with
        | none => (n, .error .frameTooLarge, c1)
        | some hdr =>
          writeTransportLoop c1 ((x :: xs).drop l) (n + l) (acc ++ hdr ++ ct)
termination_by b.length
decreasing_by
  simp_wf
  simp only [MaxMsgLen, List.length_drop, List.length_cons]
  omega

/-- Conn.Write (conn.go lines 201-241): drive the handshake loop while the
handshake is incomplete and input remains, then seal the remaining input
in the transport phase.  Returns the count of consumed input bytes, the
error status, and the final connection. -/
def Conn.Write (M : HSModel σ) (c : Conn σ) (b : List Nat) :
    Nat × Except Err Unit × Conn σ :=
  match writeHSLoop M c b 0 with
  | .error (n, e, c1) => (n, .error e, c1)
  | .ok (n, b1, c1) => writeTransportLoop c1 b1 n []

/-- Conn.HandshakeComplete (conn.go lines 244-246). -/
def Conn.HandshakeComplete (c : Conn σ) : Bool :=
  c.hs.isNone

/-- C3: cipher assignment is a pure function of role and emission order:
the initiator takes send = cs1, recv = cs2; the responder takes
send = cs2, recv = cs1. -/
theorem setCipherStates_spec (c : Conn σ) (cs1 cs2 : Option CipherState) :
    (setCipherStates c cs1 cs2).send = (if c.initiator then cs1 else cs2) ∧
    (setCipherStates c cs1 cs2).recv = (if c.initiator then cs2 else cs1) := by
  cases hi : c.initiator <;> simp [setCipherStates, hi]

/-- C4: when pending plaintext is buffered, Read delivers the first
min(blen, len(readBuf)) bytes of it in order, drops exactly those bytes,
succeeds, and changes nothing else (no stream access, no handshake
step). -/
theorem read_buffered (M : HSModel σ) (c : Conn σ) (blen : Nat)
    (h : c.readBuf ≠ []) :
    Conn.Read M c blen =
      (.ok (c.readBuf.take (min blen c.readBuf.length)),
       { c with readBuf := c.readBuf.drop (min blen c.readBuf.length) }) := by
  have hlen : ¬ (c.readBuf.length = 0) := by simpa using h
  unfold Conn.Read handleBuffered
  rw [if_neg hlen]

/-- A trivial concrete Handshaker model over a unit state, used to
instantiate witnesses. -/
def trivialHS : HSModel Unit :=
  { readMessage := fun _ _ => .error (),
    writeMessage := fun _ _ => .error () }

/-- A concrete post-handshake connection with pending plaintext. -/
def connBuffered : Conn Unit :=
  { inStream := [1, 2], outStream := [], initiator := true, hs := none,
    hsResponsibility := false, readBuf := [5, 6, 7], send := none,
    recv := none }

theorem read_buffered_witness :
    connBuffered.readBuf ≠ [] ∧
    Conn.Read trivialHS connBuffered 2 =
      (.ok [5, 6], { connBuffered with readBuf := [7] }) := by
  refine ⟨by decide, ?_⟩
  rw [read_buffered trivialHS connBuffered 2 (by decide)]
  exact rfl

/-- C7: a frame whose first header byte is not the marker makes readMsg
fail with the unknown-header error, consuming exactly the 4 header bytes
and none of the following stream bytes. -/
theorem readMsg_unknownHeader (c : Conn σ) (b0 b1 b2 b3 : Nat)
    (rest : List Nat) (hb : b0 ≠ HeaderByte)
    (hin : c.inStream = b0 :: b1 :: b2 :: b3 :: rest) :
    c.readMsgC = (.error .unknownHeader, { c with inStream := rest }) := by
  have hbytes : readMsgBytes (b0 :: b1 :: b2 :: b3 :: rest) =
      .error .unknownHeader := by
    simp [readMsgBytes, hb]
  unfold Conn.readMsgC
  rw [hin, hbytes]
  rfl

/-- A concrete post-handshake connection whose stream starts with a frame
carrying a bad marker byte. -/
def connBadMarker : Conn Unit :=
  { inStream := [0x81, 0, 0, 1, 42, 77], outStream := [],
    initiator := false, hs := none, hsResponsibility := false,
    readBuf := [], send := none, recv := none }

theorem readMsg_unknownHeader_witness :
    (0x81 : Nat) ≠ HeaderByte ∧
    connBadMarker.inStream = 0x81 :: 0 :: 0 :: 1 :: [42, 77] ∧
    connBadMarker.readMsgC =
      (.error .unknownHeader, { connBadMarker with inStream := [42, 77] }) := by
  refine ⟨by decide, by decide, ?_⟩
  exact readMsg_unknownHeader connBadMarker 0x81 0 0 1 [42, 77]
    (by decide) (by decide)

theorem readMsgC_fields (c : Conn σ) :
    (c.readMsgC).2.hs = c.hs ∧ (c.readMsgC).2.send = c.send ∧
    (c.readMsgC).2.recv = c.recv ∧ (c.readMsgC).2.readBuf = c.readBuf ∧
    (c.readMsgC).2.outStream = c.outStream ∧
    (c.readMsgC).2.hsResponsibility = c.hsResponsibility ∧
    (c.readMsgC).2.initiator = c.initiator := by
  unfold Conn.readMsgC
  split <;> exact ⟨rfl, rfl, rfl, rfl, rfl, rfl, rfl⟩

theorem handleBuffered_some_fields {blen : Nat} {c c3 : Conn σ}
    {bs : List Nat} (h : handleBuffered blen c = some (bs, c3)) :
    c3.hs = c.hs ∧ c3.send = c.send ∧ c3.recv = c.recv ∧
    c3.inStream = c.inStream ∧ c3.outStream = c.outStream := by
  unfold handleBuffered at h
  split at h
  · exact absurd h (by simp)
  · simp only [Option.some.injEq, Prod.mk.injEq] at h
    obtain ⟨-, h2⟩ := h
    subst h2
    exact ⟨rfl, rfl, rfl, rfl, rfl⟩

theorem readTransportLoop_preserves (c : Conn σ) (blen : Nat) :
    (readTransportLoop c blen).2.hs = c.hs ∧
    (readTransportLoop c blen).2.send = c.send ∧
    (readTransportLoop c blen).2.recv.isSome = c.recv.isSome := by
  induction c, blen using readTransportLoop.induct with
  | case1 c blen e c1 hm =>
    have hstep : readTransportLoop c blen = (.error e, c1) := by
      rw [readTransportLoop, hm]
    have hf : (c.readMsgC).2 = c1 := congrArg Prod.snd hm
    have hc := readMsgC_fields c
    rw [hstep, ← hf]
    exact ⟨hc.1, hc.2.1, by rw [hc.2.2.1]⟩
  | case2 c blen msg c1 hm hrecv =>
    have hstep : readTransportLoop c blen = (.error .recvNil, c1) := by
      rw [readTransportLoop, hm]
      simp only [hrecv]
    have hf : (c.readMsgC).2 = c1 := congrArg Prod.snd hm
    have hc := readMsgC_fields c
    rw [hstep, ← hf]
    exact ⟨hc.1, hc.2.1, by rw [hc.2.2.1]⟩
  | case3 c blen msg c1 hm cs hrecv a hdec =>
    have hstep : readTransportLoop c blen =
        (.error .authFailed, { c1 with readBuf := [] }) := by
      rw [readTransportLoop, hm]
      simp only [hrecv, hdec]
    have hf : (c.readMsgC).2 = c1 := congrArg Prod.snd hm
    have hc := readMsgC_fields c
    rw [hstep]
    rw [← hf] at *
    exact ⟨hc.1, hc.2.1, by rw [hc.2.2.1]⟩
  | case4 c blen msg c1 hm cs hrecv pt hdec c2 bs c3 hbuf =>
    have hbuf2 : handleBuffered blen
        ({ c1 with readBuf := c1.readBuf ++ pt,
                   recv := some ({ cs with nonce := cs.nonce + 1 }) }) =
        some (bs, c3) := hbuf
    have hstep : readTransportLoop c blen = (.ok bs, c3) := by
      rw [readTransportLoop, hm]
      simp only [hrecv, hdec, hbuf2]
    have hf : (c.readMsgC).2 = c1 := congrArg Prod.snd hm
    have hc := readMsgC_fields c
    have hb := handleBuffered_some_fields hbuf2
    rw [hstep]
    refine ⟨?_, ?_, ?_⟩
    · rw [hb.1]; show c1.hs = c.hs; rw [← hf]; exact hc.1
    · rw [hb.2.1]; show c1.send = c.send; rw [← hf]; exact hc.2.1
    · rw [hb.2.2.1]
      show (Option.some _).isSome = c.recv.isSome
      have hrs : c1.recv.isSome = c.recv.isSome := by
        rw [← hf]; exact congrArg Option.isSome hc.2.2.1
      rw [hrecv] at hrs
      simpa using hrs.symm
  | case5 c blen msg c1 hm cs hrecv pt hdec c2 hbuf IH =>
    have hbuf2 : handleBuffered blen
        ({ c1 with readBuf := c1.readBuf ++ pt,
                   recv := some ({ cs with nonce := cs.nonce + 1 }) }) = none := hbuf
    have hstep : readTransportLoop c blen = readTransportLoop
        ({ c1 with readBuf := c1.readBuf ++ pt,
                   recv := some ({ cs with nonce := cs.nonce + 1 }) }) blen := by
      rw [readTransportLoop, hm]
      simp only [hrecv, hdec, hbuf2]
    have hf : (c.readMsgC).2 = c1 := congrArg Prod.snd hm
    have hc := readMsgC_fields c
    have IH2 : (readTransportLoop
        ({ c1 with readBuf := c1.readBuf ++ pt,
                   recv := some ({ cs with nonce := cs.nonce + 1 }) }) blen).2.hs =
          c1.hs ∧
        (readTransportLoop
        ({ c1 with readBuf := c1.readBuf ++ pt,
                   recv := some ({ cs with nonce := cs.nonce + 1 }) }) blen).2.send =
          c1.send ∧
        (readTransportLoop
        ({ c1 with readBuf := c1.readBuf ++ pt,
                   recv := some ({ cs with nonce := cs.nonce + 1 }) }) blen).2.recv.isSome =
          (Option.some ({ cs with nonce := cs.nonce + 1 })).isSome := IH
    rw [hstep]
    refine ⟨?_, ?_, ?_⟩
    · rw [IH2.1]; rw [← hf]; exact hc.1
    · rw [IH2.2.1]; rw [← hf]; exact hc.2.1
    · rw [IH2.2.2]
      have hrs : c1.recv.isSome = c.recv.isSome := by
        rw [← hf]; exact congrArg Option.isSome hc.2.2.1
      rw [hrecv] at hrs
      simpa using hrs.symm

/-- The spec's data-model invariant: at every observable instant exactly
one of {handshaker present, (send and recv cipher both present)} holds. -/
def ConnInv (c : Conn σ) : Prop :=
  (c.hs.isSome = true ∧ ¬(c.send.isSome = true ∧ c.recv.isSome = true)) ∨
  (c.hs.isSome = false ∧ c.send.isSome = true ∧ c.recv.isSome = true)

/-- The hypothesis of claim C2: on every leg the Handshaker yields either
both cipher contexts or neither. -/
def YieldsBothOrNeither (M : HSModel σ) : Prop :=
  (∀ h msg payload cs1 cs2 h2,
      M.readMessage h msg = .ok (payload, cs1, cs2, h2) →
      (cs1.isSome ↔ cs2.isSome)) ∧
  (∀ h payload out cs1 cs2 h2,
      M.writeMessage h payload = .ok (out, cs1, cs2, h2) →
      (cs1.isSome ↔ cs2.isSome))

theorem inv_of_fields {c c2 : Conn σ}
    (h1 : c2.hs.isSome = c.hs.isSome) (h2 : c2.send.isSome = c.send.isSome)
    (h3 : c2.recv.isSome = c.recv.isSome) (hc : ConnInv c) : ConnInv c2 := by
  unfold ConnInv at *
  rw [h1, h2, h3]
  exact hc

theorem hsRead_inv {M : HSModel σ} (hM : YieldsBothOrNeither M)
    {c : Conn σ} (hc : ConnInv c) : ConnInv (hsRead M c).2 := by
  unfold hsRead
  split
  · exact hc
  · rename_i h hhs
    split
    · rename_i e c1 heq
      have hf : (c.readMsgC).2 = c1 := congrArg Prod.snd heq
      have hcf := readMsgC_fields c
      refine inv_of_fields ?_ ?_ ?_ hc <;> rw [← hf]
      · exact congrArg Option.isSome hcf.1
      · exact congrArg Option.isSome hcf.2.1
      · exact congrArg Option.isSome hcf.2.2.1
    · rename_i msg c1 heq
      have hf : (c.readMsgC).2 = c1 := congrArg Prod.snd heq
      have hcf := readMsgC_fields c
      have hc1 : ConnInv c1 := by
        refine inv_of_fields ?_ ?_ ?_ hc <;> rw [← hf]
        · exact congrArg Option.isSome hcf.1
        · exact congrArg Option.isSome hcf.2.1
        · exact congrArg Option.isSome hcf.2.2.1
      split
      · refine inv_of_fields ?_ ?_ ?_ hc1 <;> rfl
      · rename_i payload cs1 cs2 h2 heqR
        have hiff := hM.1 h msg payload cs1 cs2 h2 heqR
        cases cs1 with
        | none =>
          cases cs2 with
          | none =>
            unfold setCipherStates
            split <;> simp [ConnInv]
          | some b => simp at hiff
        | some a =>
          cases cs2 with
          | none => simp at hiff
          | some b =>
            unfold setCipherStates
            split <;> simp [ConnInv]

theorem hsCreate_inv {M : HSModel σ} (hM : YieldsBothOrNeither M)
    {c : Conn σ} (hc : ConnInv c) (p : List Nat) : ConnInv (hsCreate M c p).2 := by
  unfold hsCreate
  split
  · exact hc
  · rename_i h hhs
    split
    · exact hc
    · rename_i msg cs1 cs2 h2 heqW
      have hiff := hM.2 h p msg cs1 cs2 h2 heqW
      cases cs1 with
      | none =>
        cases cs2 with
        | none =>
          unfold setCipherStates
          split <;> split <;> simp [ConnInv]
        | some b => simp at hiff
      | some a =>
        cases cs2 with
        | none => simp at hiff
        | some b =>
          unfold setCipherStates
          split <;> split <;> simp [ConnInv]

theorem readTransportLoop_inv {c : Conn σ} (hc : ConnInv c) (blen : Nat) :
    ConnInv (readTransportLoop c blen).2 := by
  have hp := readTransportLoop_preserves c blen
  refine inv_of_fields ?_ ?_ hp.2.2 hc
  · exact congrArg Option.isSome hp.1
  · exact congrArg Option.isSome hp.2.1

theorem readHandshakeLoop_inv {M : HSModel σ} (hM : YieldsBothOrNeither M)
    {c : Conn σ} (hc : ConnInv c) (blen : Nat) :
    ConnInv (readHandshakeLoop M c blen).2 := by
  induction c, blen using readHandshakeLoop.induct M with
  | case1 c blen hhs =>
    have hstep : readHandshakeLoop M c blen = readTransportLoop c blen := by
      conv_lhs => rw [readHandshakeLoop]
      rw [hhs]
    rw [hstep]
    exact readTransportLoop_inv hc blen
  | case2 c blen h hhs hresp e c1 hcr =>
    have hstep : readHandshakeLoop M c blen = (.error e, c1) := by
      conv_lhs => rw [readHandshakeLoop]
      rw [hhs, if_pos hresp, hcr]
    rw [hstep]
    have hf : (hsCreate M c []).2 = c1 := congrArg Prod.snd hcr
    rw [← hf]
    exact hsCreate_inv hM hc []
  | case3 c blen h hhs hresp msg c1 hcr c2 hc2 =>
    have hinv1 : ConnInv c1 := by
      have hf : (hsCreate M c []).2 = c1 := congrArg Prod.snd hcr
      rw [← hf]
      exact hsCreate_inv hM hc []
    have hinv2 : ConnInv ({ c1 with outStream := c1.outStream ++ msg }) :=
      inv_of_fields rfl rfl rfl hinv1
    have hc2b : c1.hs = none := hc2
    have hstep : readHandshakeLoop M c blen =
        readTransportLoop ({ c1 with outStream := c1.outStream ++ msg })
          blen := by
      conv_lhs => rw [readHandshakeLoop]
      rw [hhs, if_pos hresp, hcr]
      simp only []
      rw [hc2b]
    rw [hstep]
    exact readTransportLoop_inv hinv2 blen
  | case4 c blen h hhs hresp msg c1 hcr c2 h2 hc2 e c3 hr =>
    have hinv1 : ConnInv c1 := by
      have hf : (hsCreate M c []).2 = c1 := congrArg Prod.snd hcr
      rw [← hf]
      exact hsCreate_inv hM hc []
    have hinv2 : ConnInv ({ c1 with outStream := c1.outStream ++ msg }) :=
      inv_of_fields rfl rfl rfl hinv1
    have hr2 : hsRead M ({ c1 with outStream := c1.outStream ++ msg }) =
        (.error e, c3) := hr
    have hc2b : c1.hs = some h2 := hc2
    rw [hc2b] at hr2 hinv2
    have hstep : readHandshakeLoop M c blen = (.error e, c3) := by
      conv_lhs => rw [readHandshakeLoop]
      rw [hhs, if_pos hresp, hcr]
      simp only []
      rw [hc2b]
      simp only []
      rw [hr2]
    rw [hstep]
    have hf := congrArg Prod.snd hr2
    simp only [] at hf
    rw [← hf]
    exact hsRead_inv hM hinv2
  | case5 c blen h hhs hresp msg c1 hcr c2 h2 hc2 u c3 hr bs c4 hbuf =>
    have hinv1 : ConnInv c1 := by
      have hf : (hsCreate M c []).2 = c1 := congrArg Prod.snd hcr
      rw [← hf]
      exact hsCreate_inv hM hc []
    have hinv2 : ConnInv ({ c1 with outStream := c1.outStream ++ msg }) :=
      inv_of_fields rfl rfl rfl hinv1
    have hr2 : hsRead M ({ c1 with outStream := c1.outStream ++ msg }) =
        (.ok u, c3) := hr
    have hc2b : c1.hs = some h2 := hc2
    rw [hc2b] at hr2 hinv2
    have hinv3 : ConnInv c3 := by
      have hf := congrArg Prod.snd hr2
      simp only [] at hf
      rw [← hf]
      exact hsRead_inv hM hinv2
    have hstep : readHandshakeLoop M c blen = (.ok bs, c4) := by
      conv_lhs => rw [readHandshakeLoop]
      rw [hhs, if_pos hresp, hcr]
      simp only []
      rw [hc2b]
      simp only []
      rw [hr2]
      simp only [hbuf]
    rw [hstep]
    have hb := handleBuffered_some_fields hbuf
    refine inv_of_fields ?_ ?_ ?_ hinv3
    · exact congrArg Option.isSome hb.1
    · exact congrArg Option.isSome hb.2.1
    · exact congrArg Option.isSome hb.2.2.1
  | case6 c blen h hhs hresp msg c1 hcr c2 h2 hc2 u c3 hr hbuf IH =>
    have hinv1 : ConnInv c1 := by
      have hf : (hsCreate M c []).2 = c1 := congrArg Prod.snd hcr
      rw [← hf]
      exact hsCreate_inv hM hc []
    have hinv2 : ConnInv ({ c1 with outStream := c1.outStream ++ msg }) :=
      inv_of_fields rfl rfl rfl hinv1
    have hr2 : hsRead M ({ c1 with outStream := c1.outStream ++ msg }) =
        (.ok u, c3) := hr
    have hc2b : c1.hs = some h2 := hc2
    rw [hc2b] at hr2 hinv2
    have hinv3 : ConnInv c3 := by
      have hf := congrArg Prod.snd hr2
      simp only [] at hf
      rw [← hf]
      exact hsRead_inv hM hinv2
    have hstep : readHandshakeLoop M c blen = readHandshakeLoop M c3 blen := by
      conv_lhs => rw [readHandshakeLoop]
      rw [hhs, if_pos hresp, hcr]
      simp only []
      rw [hc2b]
      simp only []
      rw [hr2]
      simp only [hbuf]
    rw [hstep]
    exact IH hinv3
  | case7 c blen h hhs hresp e c3 hr =>
    have hstep : readHandshakeLoop M c blen = (.error e, c3) := by
      conv_lhs => rw [readHandshakeLoop]
      rw [hhs, if_neg (show ¬ c.hsResponsibility = true by simp [hresp]), hr]
    rw [hstep]
    have hf : (hsRead M c).2 = c3 := congrArg Prod.snd hr
    rw [← hf]
    exact hsRead_inv hM hc
  | case8 c blen h hhs hresp u c3 hr bs c4 hbuf =>
    have hinv3 : ConnInv c3 := by
      have hf : (hsRead M c).2 = c3 := congrArg Prod.snd hr
      rw [← hf]
      exact hsRead_inv hM hc
    have hstep : readHandshakeLoop M c blen = (.ok bs, c4) := by
      conv_lhs => rw [readHandshakeLoop]
      rw [hhs, if_neg (show ¬ c.hsResponsibility = true by simp [hresp]), hr]
      simp only [hbuf]
    rw [hstep]
    have hb := handleBuffered_some_fields hbuf
    refine inv_of_fields ?_ ?_ ?_ hinv3
    · exact congrArg Option.isSome hb.1
    · exact congrArg Option.isSome hb.2.1
    · exact congrArg Option.isSome hb.2.2.1
  | case9 c blen h hhs hresp u c3 hr hbuf IH =>
    have hinv3 : ConnInv c3 := by
      have hf : (hsRead M c).2 = c3 := congrArg Prod.snd hr
      rw [← hf]
      exact hsRead_inv hM hc
    have hstep : readHandshakeLoop M c blen = readHandshakeLoop M c3 blen := by
      conv_lhs => rw [readHandshakeLoop]
      rw [hhs, if_neg (show ¬ c.hsResponsibility = true by simp [hresp]), hr]
      simp only [hbuf]
    rw [hstep]
    exact IH hinv3

/-- The connection carried by a writeHSLoop result, whether it ended in an
error or ran to completion. -/
def writeHSLoopConn :
    Except (Nat × Err × Conn σ) (Nat × List Nat × Conn σ) → Conn σ
  | .error (_, _, c) => c
  | .ok (_, _, c) => c

theorem writeStep_inv {M : HSModel σ} (hM : YieldsBothOrNeither M)
    {c c1 : Conn σ} {r : Except Err Unit}
    (hif : (if _h : c.hsResponsibility = true then ((.ok () : Except Err Unit), c)
            else hsRead M c) = (r, c1))
    (hc : ConnInv c) : ConnInv c1 := by
  by_cases hb : c.hsResponsibility = true
  · rw [dif_pos hb] at hif
    have hcc : c = c1 := by
      have := congrArg Prod.snd hif
      simpa using this
    rw [← hcc]
    exact hc
  · rw [dif_neg hb] at hif
    have hf : (hsRead M c).2 = c1 := congrArg Prod.snd hif
    rw [← hf]
    exact hsRead_inv hM hc

theorem writeTransportLoop_preserves (c : Conn σ) (b : List Nat) (n : Nat)
    (acc : List Nat) :
    (writeTransportLoop c b n acc).2.2.hs = c.hs ∧
    (writeTransportLoop c b n acc).2.2.send.isSome = c.send.isSome ∧
    (writeTransportLoop c b n acc).2.2.recv.isSome = c.recv.isSome := by
  induction c, b, n, acc using writeTransportLoop.induct with
  | case1 c n acc =>
    have hstep : writeTransportLoop c [] n acc =
        (n, .ok (), { c with outStream := c.outStream ++ acc }) := by
      rw [writeTransportLoop]
    rw [hstep]
    exact ⟨rfl, rfl, rfl⟩
  | case2 c n acc x xs hsend =>
    have hstep : writeTransportLoop c (x :: xs) n acc =
        (n, .error .sendNil, c) := by
      conv_lhs => rw [writeTransportLoop]
      rw [hsend]
    rw [hstep]
    exact ⟨rfl, rfl, rfl⟩
  | case3 c n acc x xs l cs hsend a henc =>
    have hstep : writeTransportLoop c (x :: xs) n acc =
        (n, .error .encryptFailed, c) := by
      conv_lhs => rw [writeTransportLoop]
      rw [hsend]
      simp only []
      rw [henc]
    rw [hstep]
    exact ⟨rfl, rfl, rfl⟩
  | case4 c n acc x xs l cs hsend pt henc hfr =>
    have hstep : writeTransportLoop c (x :: xs) n acc =
        (n, .error .frameTooLarge,
         { c with send := some ({ cs with nonce := cs.nonce + 1 }) }) := by
      conv_lhs => rw [writeTransportLoop]
      rw [hsend]
      simp only []
      rw [henc]
      simp only []
      rw [hfr]
    rw [hstep]
    refine ⟨rfl, ?_, rfl⟩
    rw [hsend]
    rfl
  | case5 c n acc x xs l cs hsend pt henc c1 hdr hfr IH =>
    have hstep : writeTransportLoop c (x :: xs) n acc =
        writeTransportLoop
          ({ c with send := some ({ cs with nonce := cs.nonce + 1 }) })
          ((x :: xs).drop l) (n + l) (acc ++ hdr ++ pt) := by
      conv_lhs => rw [writeTransportLoop]
      rw [hsend]
      simp only []
      rw [henc]
      simp only []
      rw [hfr]
    rw [hstep]
    refine ⟨IH.1, ?_, IH.2.2⟩
    rw [IH.2.1, hsend]
    rfl

theorem writeHSLoop_inv {M : HSModel σ} (hM : YieldsBothOrNeither M)
    {c : Conn σ} (hc : ConnInv c) (b : List Nat) (n : Nat) :
    ConnInv (writeHSLoopConn (writeHSLoop M c b n)) := by
  induction c, b, n using writeHSLoop.induct M with
  | case1 c b n hhs =>
    have hstep : writeHSLoop M c b n = .ok (n, b, c) := by
      conv_lhs => rw [writeHSLoop.eq_def]
      rw [hhs]
    rw [hstep]
    exact hc
  | case2 c n val hhs =>
    have hstep : writeHSLoop M c [] n = .ok (n, [], c) := by
      conv_lhs => rw [writeHSLoop.eq_def]
      rw [hhs]
    rw [hstep]
    exact hc
  | case3 c n val x xs hhs e c1 hif =>
    have hif2 : (if c.hsResponsibility = true
        then ((.ok () : Except Err Unit), c) else hsRead M c) =
        (.error e, c1) := hif
    have hstep : writeHSLoop M c (x :: xs) n = .error (n, e, c1) := by
      conv_lhs => rw [writeHSLoop.eq_def]
      rw [hhs]
      simp only []
      rw [hif2]
    rw [hstep]
    exact writeStep_inv hM hif hc
  | case4 c n val x xs hhs a c1 hif hc1 =>
    have hif2 : (if c.hsResponsibility = true
        then ((.ok () : Except Err Unit), c) else hsRead M c) =
        (.ok a, c1) := hif
    have hstep : writeHSLoop M c (x :: xs) n = .ok (n, x :: xs, c1) := by
      conv_lhs => rw [writeHSLoop.eq_def]
      rw [hhs]
      simp only []
      rw [hif2]
      simp only []
      rw [hc1]
    rw [hstep]
    exact writeStep_inv hM hif hc
  | case5 c n val x xs hhs a c1 hif h hc1 l e c2 hcr =>
    have hif2 : (if c.hsResponsibility = true
        then ((.ok () : Except Err Unit), c) else hsRead M c) =
        (.ok a, c1) := hif
    have hinv1 : ConnInv c1 := writeStep_inv hM hif hc
    have hcr2 : hsCreate M c1
        ((x :: xs).take (min MaxMsgLen (x :: xs).length)) =
        (.error e, c2) := hcr
    have hstep : writeHSLoop M c (x :: xs) n = .error (n, e, c2) := by
      conv_lhs => rw [writeHSLoop.eq_def]
      rw [hhs]
      simp only []
      rw [hif2]
      simp only []
      rw [hc1]
      simp only []
      rw [hcr2]
    rw [hstep]
    have hf := congrArg Prod.snd hcr2
    simp only [] at hf
    show ConnInv c2
    rw [← hf]
    exact hsCreate_inv hM hinv1 _
  | case6 c n val x xs hhs a c1 hif h hc1 l msg c2 hcr c3 IH =>
    have hif2 : (if c.hsResponsibility = true
        then ((.ok () : Except Err Unit), c) else hsRead M c) =
        (.ok a, c1) := hif
    have hinv1 : ConnInv c1 := writeStep_inv hM hif hc
    have hcr2 : hsCreate M c1
        ((x :: xs).take (min MaxMsgLen (x :: xs).length)) =
        (.ok msg, c2) := hcr
    have hinv2 : ConnInv c2 := by
      have hf := congrArg Prod.snd hcr2
      simp only [] at hf
      rw [← hf]
      exact hsCreate_inv hM hinv1 _
    have hinv3 : ConnInv ({ c2 with outStream := c2.outStream ++ msg }) :=
      inv_of_fields rfl rfl rfl hinv2
    have hstep : writeHSLoop M c (x :: xs) n =
        writeHSLoop M ({ c2 with outStream := c2.outStream ++ msg })
          ((x :: xs).drop (min MaxMsgLen (x :: xs).length))
          (n + min MaxMsgLen (x :: xs).length) := by
      conv_lhs => rw [writeHSLoop.eq_def]
      rw [hhs]
      simp only []
      rw [hif2]
      simp only []
      rw [hc1]
      simp only []
      rw [hcr2]
    rw [hstep]
    exact IH hinv3

theorem read_inv {M : HSModel σ} (hM : YieldsBothOrNeither M)
    {c : Conn σ} (hc : ConnInv c) (blen : Nat) :
    ConnInv (Conn.Read M c blen).2 := by
  unfold Conn.Read
  split
  · rename_i bs c1 hbuf
    have hb := handleBuffered_some_fields hbuf
    refine inv_of_fields ?_ ?_ ?_ hc
    · exact congrArg Option.isSome hb.1
    · exact congrArg Option.isSome hb.2.1
    · exact congrArg Option.isSome hb.2.2.1
  · exact readHandshakeLoop_inv hM hc blen

theorem write_inv {M : HSModel σ} (hM : YieldsBothOrNeither M)
    {c : Conn σ} (hc : ConnInv c) (b : List Nat) :
    ConnInv (Conn.Write M c b).2.2 := by
  unfold Conn.Write
  have hloop := writeHSLoop_inv hM hc b 0
  split
  · rename_i n e c1 heq
    rw [heq] at hloop
    exact hloop
  · rename_i n b1 c1 heq
    rw [heq] at hloop
    have hp := writeTransportLoop_preserves c1 b1 n []
    refine inv_of_fields ?_ ?_ hp.2.2 hloop
    · exact congrArg Option.isSome hp.1
    · exact hp.2.1

/-- C2: assuming the Handshaker yields either both cipher contexts or
neither on each leg, every operation on a Connection (hsRead, hsCreate,
Read, Write) preserves the invariant that exactly one of {handshaker
present, both cipher contexts present} holds; the state returned by a call
(also by a failing call) never has the transition partially completed. -/
theorem conn_invariant (M : HSModel σ) (hM : YieldsBothOrNeither M)
    (c : Conn σ) (hc : ConnInv c) (p : List Nat) (blen : Nat)
    (b : List Nat) :
    ConnInv (hsRead M c).2 ∧ ConnInv (hsCreate M c p).2 ∧
    ConnInv (Conn.Read M c blen).2 ∧ ConnInv (Conn.Write M c b).2.2 :=
  ⟨hsRead_inv hM hc, hsCreate_inv hM hc p, read_inv hM hc blen,
   write_inv hM hc b⟩

/-- An identity cipher context for witnesses: sealing and opening are the
identity at every nonce. -/
def idCipher : CipherState :=
  { nonce := 0, encAt := fun _ p => .ok p, decAt := fun _ ct => .ok ct }

/-- A concrete Handshaker model that completes at once, yielding both
cipher contexts on every leg. -/
def bothHS : HSModel Unit :=
  { readMessage := fun _ msg => .ok (msg, some idCipher, some idCipher, ()),
    writeMessage := fun _ p => .ok (p, some idCipher, some idCipher, ()) }

theorem bothHS_yields : YieldsBothOrNeither bothHS := by
  constructor
  · intro h msg payload cs1 cs2 h2 heq
    simp only [bothHS, Except.ok.injEq, Prod.mk.injEq] at heq
    obtain ⟨-, h1, h2', -⟩ := heq
    rw [← h1, ← h2']
  · intro h payload out cs1 cs2 h2 heq
    simp only [bothHS, Except.ok.injEq, Prod.mk.injEq] at heq
    obtain ⟨-, h1, h2', -⟩ := heq
    rw [← h1, ← h2']

/-- A concrete freshly-constructed initiator connection. -/
def connHS : Conn Unit :=
  { inStream := [], outStream := [], initiator := true, hs := some (),
    hsResponsibility := true, readBuf := [], send := none, recv := none }

theorem connHS_inv : ConnInv connHS := by
  left
  exact ⟨rfl, by simp [connHS]⟩

theorem conn_invariant_witness :
    YieldsBothOrNeither bothHS ∧ ConnInv connHS ∧
    (ConnInv (hsRead bothHS connHS).2 ∧
     ConnInv (hsCreate bothHS connHS [1]).2 ∧
     ConnInv (Conn.Read bothHS connHS 4).2 ∧
     ConnInv (Conn.Write bothHS connHS [1, 2]).2.2) :=
  ⟨bothHS_yields, connHS_inv,
   conn_invariant bothHS bothHS_yields connHS connHS_inv [1] 4 [1, 2]⟩

/-- The public operations of the Connection, for stating temporal
properties over operation sequences. -/
inductive Op where
  | read (blen : Nat)
  | write (b : List Nat)

def applyOp (M : HSModel σ) (c : Conn σ) : Op → Conn σ
  | .read blen => (Conn.Read M c blen).2
  | .write b => (Conn.Write M c b).2.2

def applyOps (M : HSModel σ) : Conn σ → List Op → Conn σ
  | c, [] => c
  | c, o :: os => applyOps M (applyOp M c o) os

theorem read_hs_none {M : HSModel σ} {c : Conn σ} (blen : Nat)
    (h : c.hs = none) : (Conn.Read M c blen).2.hs = none := by
  unfold Conn.Read
  split
  · rename_i bs c1 hbuf
    rw [(handleBuffered_some_fields hbuf).1]
    exact h
  · have hstep : readHandshakeLoop M c blen = readTransportLoop c blen := by
      conv_lhs => rw [readHandshakeLoop]
      rw [h]
    rw [hstep, (readTransportLoop_preserves c blen).1]
    exact h

theorem write_hs_none {M : HSModel σ} {c : Conn σ} (b : List Nat)
    (h : c.hs = none) : (Conn.Write M c b).2.2.hs = none := by
  unfold Conn.Write
  have hstep : writeHSLoop M c b 0 = .ok (0, b, c) := by
    conv_lhs => rw [writeHSLoop.eq_def]
    rw [h]
  rw [hstep]
  simp only []
  rw [(writeTransportLoop_preserves c b 0 []).1]
  exact h

/-- C9: HandshakeComplete is a pure query, true exactly when the
handshaker is absent; and over any sequence of Read/Write operations it
never reverts from true to false: once the handshaker is discarded no
operation re-installs it. -/
theorem handshakeComplete_spec (M : HSModel σ) (c : Conn σ)
    (ops : List Op) :
    (c.HandshakeComplete = true ↔ c.hs = none) ∧
    (c.HandshakeComplete = true →
      (applyOps M c ops).HandshakeComplete = true) := by
  constructor
  · simp [Conn.HandshakeComplete, Option.isNone_iff_eq_none]
  · intro h
    induction ops generalizing c with
    | nil => exact h
    | cons o os IH =>
      show (applyOps M (applyOp M c o) os).HandshakeComplete = true
      apply IH
      have hn : c.hs = none := by
        simpa [Conn.HandshakeComplete, Option.isNone_iff_eq_none] using h
      cases o with
      | read blen =>
        simp [applyOp, Conn.HandshakeComplete, Option.isNone_iff_eq_none,
          read_hs_none blen hn]
      | write b =>
        simp [applyOp, Conn.HandshakeComplete, Option.isNone_iff_eq_none,
          write_hs_none b hn]

theorem handshakeComplete_spec_witness :
    (connBuffered.HandshakeComplete = true ↔ connBuffered.hs = none) ∧
    connBuffered.HandshakeComplete = true ∧
    (applyOps trivialHS connBuffered
      [Op.read 1, Op.write [2]]).HandshakeComplete = true :=
  ⟨(handshakeComplete_spec trivialHS connBuffered
      [Op.read 1, Op.write [2]]).1,
   by decide,
   (handshakeComplete_spec trivialHS connBuffered
      [Op.read 1, Op.write [2]]).2 (by decide)⟩

theorem handleBuffered_empty {blen : Nat} {c : Conn σ}
    (h : c.readBuf = []) : handleBuffered blen c = none := by
  unfold handleBuffered
  rw [if_pos (by rw [h]; rfl)]

/-- C8: after the handshake, when the next frame decodes but its
decryption fails, Read returns the authentication error with no bytes and
leaves the pending plaintext unchanged (the transport decode path is only
reachable with an empty pending buffer, which the failing call leaves
empty). -/
theorem read_auth_failure (M : HSModel σ) (c : Conn σ) (blen : Nat)
    (msg rest : List Nat) (cs : CipherState)
    (hhs : c.hs = none) (hbuf : c.readBuf = [])
    (hmsg : readMsgBytes c.inStream = .ok (msg, rest))
    (hrecv : c.recv = some cs)
    (hdec : cs.decAt cs.nonce msg = .error ()) :
    Conn.Read M c blen =
      (.error .authFailed, { c with inStream := rest }) := by
  unfold Conn.Read
  rw [handleBuffered_empty hbuf]
  have hstep : readHandshakeLoop M c blen = readTransportLoop c blen := by
    conv_lhs => rw [readHandshakeLoop]
    rw [hhs]
  rw [hstep]
  have hmc : c.readMsgC = (.ok msg, { c with inStream := rest }) := by
    unfold Conn.readMsgC
    rw [hmsg]
  conv_lhs => rw [readTransportLoop]
  rw [hmc]
  simp only []
  rw [hrecv]
  simp only []
  rw [hdec]
  simp only []
  rw [← hbuf]

/-- A cipher context that rejects every ciphertext, modelling tampered
transport data. -/
def badCipher : CipherState :=
  { nonce := 5, encAt := fun _ _ => .error (), decAt := fun _ _ => .error () }

/-- A post-handshake connection whose stream holds one well-formed frame
whose ciphertext will fail authentication. -/
def connTampered : Conn Unit :=
  { inStream := [0x80, 0, 0, 2, 9, 9, 7], outStream := [],
    initiator := true, hs := none, hsResponsibility := false,
    readBuf := [], send := none, recv := some badCipher }

theorem read_auth_failure_witness :
    connTampered.hs = none ∧ connTampered.readBuf = [] ∧
    readMsgBytes connTampered.inStream = .ok ([9, 9], [7]) ∧
    connTampered.recv = some badCipher ∧
    badCipher.decAt badCipher.nonce [9, 9] = .error () ∧
    Conn.Read trivialHS connTampered 8 =
      (.error .authFailed, { connTampered with inStream := [7] }) :=
  ⟨rfl, rfl, rfl, rfl, rfl,
   read_auth_failure trivialHS connTampered 8 [9, 9] [7] badCipher
     rfl rfl rfl rfl rfl⟩

theorem handleBuffered_some_nonempty {blen : Nat} {c c3 : Conn σ}
    {bs : List Nat} (hblen : 0 < blen)
    (h : handleBuffered blen c = some (bs, c3)) : bs ≠ [] := by
  unfold handleBuffered at h
  split at h
  · exact absurd h (by simp)
  · rename_i hne
    simp only [Option.some.injEq, Prod.mk.injEq] at h
    obtain ⟨h1, -⟩ := h
    rw [← h1]
    simp only [ne_eq, List.take_eq_nil_iff]
    push_neg
    constructor
    · have : 0 < min blen c.readBuf.length := by
        have : 0 < c.readBuf.length := Nat.pos_of_ne_zero hne
        omega
      omega
    · intro hc
      exact hne (by rw [hc]; rfl)

theorem readTransportLoop_ok_nonempty (c : Conn σ) (blen : Nat) :
    ∀ bs c2, readTransportLoop c blen = (.ok bs, c2) → 0 < blen →
      bs ≠ [] := by
  induction c, blen using readTransportLoop.induct with
  | case1 c blen e c1 hm =>
    intro bs c2 hres hblen
    have hstep : readTransportLoop c blen = (.error e, c1) := by
      rw [readTransportLoop, hm]
    rw [hstep] at hres
    exact absurd hres (by simp)
  | case2 c blen msg c1 hm hrecv =>
    intro bs c2 hres hblen
    have hstep : readTransportLoop c blen = (.error .recvNil, c1) := by
      rw [readTransportLoop, hm]
      simp only [hrecv]
    rw [hstep] at hres
    exact absurd hres (by simp)
  | case3 c blen msg c1 hm cs hrecv a hdec =>
    intro bs c2 hres hblen
    have hstep : readTransportLoop c blen =
        (.error .authFailed, { c1 with readBuf := [] }) := by
      rw [readTransportLoop, hm]
      simp only [hrecv, hdec]
    rw [hstep] at hres
    exact absurd hres (by simp)
  | case4 c blen msg c1 hm cs hrecv pt hdec c2 bs c3 hbuf =>
    intro bs2 c4 hres hblen
    have hbuf2 : handleBuffered blen
        ({ c1 with readBuf := c1.readBuf ++ pt,
                   recv := some ({ cs with nonce := cs.nonce + 1 }) }) =
        some (bs, c3) := hbuf
    have hstep : readTransportLoop c blen = (.ok bs, c3) := by
      rw [readTransportLoop, hm]
      simp only [hrecv, hdec, hbuf2]
    rw [hstep] at hres
    simp only [Prod.mk.injEq, Except.ok.injEq] at hres
    obtain ⟨h1, -⟩ := hres
    rw [← h1]
    exact handleBuffered_some_nonempty hblen hbuf2
  | case5 c blen msg c1 hm cs hrecv pt hdec c2 hbuf IH =>
    intro bs c4 hres hblen
    have hbuf2 : handleBuffered blen
        ({ c1 with readBuf := c1.readBuf ++ pt,
                   recv := some ({ cs with nonce := cs.nonce + 1 }) }) =
        none := hbuf
    have hstep : readTransportLoop c blen = readTransportLoop
        ({ c1 with readBuf := c1.readBuf ++ pt,
                   recv := some ({ cs with nonce := cs.nonce + 1 }) }) blen := by
      rw [readTransportLoop, hm]
      simp only [hrecv, hdec, hbuf2]
    rw [hstep] at hres
    exact IH bs c4 hres hblen

/-- C10: after the handshake, a Read that starts with an empty pending
buffer and a positive destination capacity never succeeds with zero bytes:
a frame decrypting to empty plaintext is consumed and skipped (the loop
continues on the remaining stream with the advanced cipher), and success
delivers at least one byte. -/
theorem read_never_empty (M : HSModel σ) (c : Conn σ) (blen : Nat)
    (hhs : c.hs = none) (hbuf : c.readBuf = []) (hblen : 0 < blen) :
    (∀ bs c2, Conn.Read M c blen = (.ok bs, c2) → bs ≠ []) ∧
    (∀ msg rest cs, readMsgBytes c.inStream = .ok (msg, rest) →
      c.recv = some cs → cs.decAt cs.nonce msg = .ok [] →
      Conn.Read M c blen =
        Conn.Read M ({ c with inStream := rest, recv := some ({ cs with nonce := cs.nonce + 1 }) }) blen) := by
  have hread : Conn.Read M c blen = readTransportLoop c blen := by
    unfold Conn.Read
    rw [handleBuffered_empty hbuf]
    conv_lhs => rw [readHandshakeLoop]
    rw [hhs]
  constructor
  · intro bs c2 hres
    rw [hread] at hres
    exact readTransportLoop_ok_nonempty c blen bs c2 hres hblen
  · intro msg rest cs hmsg hrecv hdec
    have hmc : c.readMsgC = (.ok msg, { c with inStream := rest }) := by
      unfold Conn.readMsgC
      rw [hmsg]
    have hstep : readTransportLoop c blen = readTransportLoop
        ({ c with inStream := rest, recv := some ({ cs with nonce := cs.nonce + 1 }) }) blen := by
      conv_lhs => rw [readTransportLoop]
      rw [hmc]
      simp only []
      rw [hrecv]
      simp only []
      rw [hdec]
      simp only [List.append_nil]
      rw [handleBuffered_empty (c := { c with inStream := rest, readBuf := c.readBuf, recv := some ({ cs with nonce := cs.nonce + 1 }) }) (by simpa using hbuf)]
    have hread2 : Conn.Read M ({ c with inStream := rest, recv := some ({ cs with nonce := cs.nonce + 1 }) }) blen =
        readTransportLoop ({ c with inStream := rest, recv := some ({ cs with nonce := cs.nonce + 1 }) }) blen := by
      unfold Conn.Read
      rw [handleBuffered_empty (by simpa using hbuf)]
      conv_lhs => rw [readHandshakeLoop]
      rw [show ({ c with inStream := rest, recv := some ({ cs with nonce := cs.nonce + 1 }) } : Conn σ).hs = none from hhs]
    rw [hread, hstep, hread2]

/-- A post-handshake connection whose stream holds an empty-payload frame
followed by a one-byte frame. -/
def connSkip : Conn Unit :=
  { inStream := [0x80, 0, 0, 0, 0x80, 0, 0, 1, 42], outStream := [],
    initiator := true, hs := none, hsResponsibility := false,
    readBuf := [], send := none, recv := some idCipher }

theorem read_never_empty_witness :
    connSkip.hs = none ∧ connSkip.readBuf = [] ∧ (0 : Nat) < 4 ∧
    (∀ bs c2, Conn.Read trivialHS connSkip 4 = (.ok bs, c2) → bs ≠ []) ∧
    Conn.Read trivialHS connSkip 4 =
      Conn.Read trivialHS ({ connSkip with inStream := [0x80, 0, 0, 1, 42], recv := some ({ idCipher with nonce := idCipher.nonce + 1 }) }) 4 :=
  ⟨rfl, rfl, by decide,
   (read_never_empty trivialHS connSkip 4 rfl rfl (by decide)).1,
   (read_never_empty trivialHS connSkip 4 rfl rfl (by decide)).2
     [] [0x80, 0, 0, 1, 42] idCipher rfl rfl rfl⟩

theorem writeHSLoop_none {M : HSModel σ} {c : Conn σ} (b : List Nat)
    (n : Nat) (h : c.hs = none) : writeHSLoop M c b n = .ok (n, b, c) := by
  conv_lhs => rw [writeHSLoop.eq_def]
  rw [h]

theorem writeTransportLoop_count (c : Conn σ) (b : List Nat) (n : Nat)
    (acc : List Nat) :
    (writeTransportLoop c b n acc).1 ≤ n + b.length ∧
    ((writeTransportLoop c b n acc).2.1 = .ok () →
      (writeTransportLoop c b n acc).1 = n + b.length) ∧
    (∀ e, (writeTransportLoop c b n acc).2.1 = .error e →
      (writeTransportLoop c b n acc).2.2.outStream = c.outStream) := by
  induction c, b, n, acc using writeTransportLoop.induct with
  | case1 c n acc =>
    have hstep : writeTransportLoop c [] n acc =
        (n, .ok (), { c with outStream := c.outStream ++ acc }) := by
      rw [writeTransportLoop]
    rw [hstep]
    exact ⟨by simp, fun _ => by simp, fun e he => by simp at he⟩
  | case2 c n acc x xs hsend =>
    have hstep : writeTransportLoop c (x :: xs) n acc =
        (n, .error .sendNil, c) := by
      conv_lhs => rw [writeTransportLoop]
      rw [hsend]
    rw [hstep]
    exact ⟨by simp, fun hok => by simp at hok, fun e he => rfl⟩
  | case3 c n acc x xs l cs hsend a henc =>
    have hstep : writeTransportLoop c (x :: xs) n acc =
        (n, .error .encryptFailed, c) := by
      conv_lhs => rw [writeTransportLoop]
      rw [hsend]
      simp only []
      rw [henc]
    rw [hstep]
    exact ⟨by simp, fun hok => by simp at hok, fun e he => rfl⟩
  | case4 c n acc x xs l cs hsend pt henc hfr =>
    have hstep : writeTransportLoop c (x :: xs) n acc =
        (n, .error .frameTooLarge,
         { c with send := some ({ cs with nonce := cs.nonce + 1 }) }) := by
      conv_lhs => rw [writeTransportLoop]
      rw [hsend]
      simp only []
      rw [henc]
      simp only []
      rw [hfr]
    rw [hstep]
    exact ⟨by simp, fun hok => by simp at hok, fun e he => rfl⟩
  | case5 c n acc x xs l cs hsend pt henc c1 hdr hfr IH =>
    have hstep : writeTransportLoop c (x :: xs) n acc =
        writeTransportLoop c1 ((x :: xs).drop l) (n + l)
          (acc ++ hdr ++ pt) := by
      conv_lhs => rw [writeTransportLoop]
      rw [hsend]
      simp only []
      rw [henc]
      simp only []
      rw [hfr]
    rw [hstep]
    have hl : l ≤ (x :: xs).length := Nat.min_le_right _ _
    have hlen : (n + l) + ((x :: xs).drop l).length =
        n + (x :: xs).length := by
      simp only [List.length_drop]
      omega
    refine ⟨?_, ?_, ?_⟩
    · have := IH.1
      omega
    · intro hok
      have := IH.2.1 hok
      omega
    · intro e he
      exact IH.2.2 e he

/-- C5: on the transport-phase path, Write consumes input chunk by chunk:
the returned count never exceeds the input length, a successful Write
reports exactly the input length consumed, and a failing Write reports the
count secured before the failure without having performed the final
coalesced stream write. -/
theorem write_count (M : HSModel σ) (c : Conn σ) (b : List Nat)
    (hhs : c.hs = none) :
    (Conn.Write M c b).1 ≤ b.length ∧
    ((Conn.Write M c b).2.1 = .ok () → (Conn.Write M c b).1 = b.length) ∧
    (∀ e, (Conn.Write M c b).2.1 = .error e →
      (Conn.Write M c b).2.2.outStream = c.outStream) := by
  have hw : Conn.Write M c b = writeTransportLoop c b 0 [] := by
    unfold Conn.Write
    rw [writeHSLoop_none b 0 hhs]
  rw [hw]
  have := writeTransportLoop_count c b 0 []
  simpa using this

/-- A post-handshake connection ready to send through the identity
cipher. -/
def connSender : Conn Unit :=
  { inStream := [], outStream := [7], initiator := true, hs := none,
    hsResponsibility := false, readBuf := [], send := some idCipher,
    recv := none }

theorem write_count_witness :
    connSender.hs = none ∧
    ((Conn.Write trivialHS connSender [1, 2, 3]).1 ≤ 3 ∧
     ((Conn.Write trivialHS connSender [1, 2, 3]).2.1 = .ok () →
       (Conn.Write trivialHS connSender [1, 2, 3]).1 = 3) ∧
     (∀ e, (Conn.Write trivialHS connSender [1, 2, 3]).2.1 = .error e →
       (Conn.Write trivialHS connSender [1, 2, 3]).2.2.outStream =
         connSender.outStream)) :=
  ⟨rfl, write_count trivialHS connSender [1, 2, 3] rfl⟩

/-- The plaintext chunking performed by the transport phase of Conn.Write:
successive pieces of at most noise.MaxMsgLen bytes. -/
def chunksOf : List Nat → List (List Nat)
  | [] => []
  | x :: xs =>
    (x :: xs).take (min MaxMsgLen (x :: xs).length) ::
      chunksOf ((x :: xs).drop (min MaxMsgLen (x :: xs).length))
termination_by l => l.length
decreasing_by
  simp_wf
  simp only [MaxMsgLen, List.length_drop, List.length_cons]
  omega

/-- Iterated frame decoding: the payloads of the consecutive frames at the
head of a byte sequence. -/
def decodeFrames (s : List Nat) : List (List Nat) :=
  match h : readMsgBytes s with
  | .ok (msg, rest) => msg :: decodeFrames rest
  | .error _ => []
termination_by s.length
decreasing_by
  have := readMsgBytes_ok_len h
  omega

theorem decodeFrames_cons {s msg rest : List Nat}
    (h : readMsgBytes s = .ok (msg, rest)) :
    decodeFrames s = msg :: decodeFrames rest := by
  conv_lhs => rw [decodeFrames]
  rw [h]

theorem decodeFrames_frame {ct rest : List Nat} (h : ct.length < 2 ^ 24)
    {enc : List Nat} (henc : frameMsg ct = some enc) :
    decodeFrames (enc ++ rest) = ct :: decodeFrames rest := by
  obtain ⟨enc2, henc2, hread⟩ := (frame_roundtrip ct).1 h
  rw [henc] at henc2
  obtain rfl : enc = enc2 := by injection henc2
  exact decodeFrames_cons (hread rest)

theorem decodeFrames_nil : decodeFrames [] = [] := by
  rw [decodeFrames]
  rfl

theorem chunksOf_nil : chunksOf [] = [] := by
  rw [chunksOf]

theorem frameMsg_of_frame {ct hdr : List Nat} (h : frame ct = some hdr) :
    frameMsg ct = some (hdr ++ ct) := by
  unfold frameMsg
  rw [h]

theorem frame_some_of_lt {ct : List Nat} (h : ct.length < 2 ^ 24) :
    ∃ hdr, frame ct = some hdr := by
  unfold frame
  rw [if_neg (by rw [shiftLeft24_eq]; omega)]
  exact ⟨_, rfl⟩

theorem writeTransportLoop_chunks (c : Conn σ) (b : List Nat) (n : Nat)
    (acc : List Nat) :
    ∀ cs : CipherState, c.send = some cs →
    (∀ m p, p ≠ [] → p.length ≤ MaxMsgLen →
      ∃ ct, cs.encAt m p = .ok ct ∧ ct.length < 2 ^ 24) →
    (writeTransportLoop c b n acc).2.1 = .ok () ∧
    (writeTransportLoop c b n acc).1 = n + b.length ∧
    ∃ suffix, (writeTransportLoop c b n acc).2.2.outStream =
        c.outStream ++ acc ++ suffix ∧
      (decodeFrames suffix).length = (chunksOf b).length := by
  induction c, b, n, acc using writeTransportLoop.induct with
  | case1 c n acc =>
    intro cs hsend hE
    have hstep : writeTransportLoop c [] n acc =
        (n, .ok (), { c with outStream := c.outStream ++ acc }) := by
      rw [writeTransportLoop]
    rw [hstep]
    exact ⟨rfl, by simp, [], by simp, by rw [decodeFrames_nil, chunksOf_nil]⟩
  | case2 c n acc x xs hsend2 =>
    intro cs hsend hE
    rw [hsend] at hsend2
    exact absurd hsend2 (by simp)
  | case3 c n acc x xs l cs2 hsend2 a henc =>
    intro cs hsend hE
    rw [hsend] at hsend2
    injection hsend2 with hcs
    subst hcs
    have hl : l = min MaxMsgLen (x :: xs).length := rfl
    have htake_ne : (x :: xs).take l ≠ [] := by
      simp only [ne_eq, List.take_eq_nil_iff]
      push_neg
      refine ⟨?_, by simp⟩
      simp only [MaxMsgLen, List.length_cons] at hl
      omega
    have htake_le : ((x :: xs).take l).length ≤ MaxMsgLen := by
      simp only [List.length_take]
      simp only [MaxMsgLen, List.length_cons] at hl ⊢
      omega
    obtain ⟨ct, hok, hlt⟩ := hE cs.nonce ((x :: xs).take l) htake_ne htake_le
    rw [hok] at henc
    exact absurd henc (by simp)
  | case4 c n acc x xs l cs2 hsend2 pt henc hfr =>
    intro cs hsend hE
    rw [hsend] at hsend2
    injection hsend2 with hcs
    subst hcs
    have hl : l = min MaxMsgLen (x :: xs).length := rfl
    have htake_ne : (x :: xs).take l ≠ [] := by
      simp only [ne_eq, List.take_eq_nil_iff]
      push_neg
      refine ⟨?_, by simp⟩
      simp only [MaxMsgLen, List.length_cons] at hl
      omega
    have htake_le : ((x :: xs).take l).length ≤ MaxMsgLen := by
      simp only [List.length_take]
      simp only [MaxMsgLen, List.length_cons] at hl ⊢
      omega
    obtain ⟨ct, hok, hlt⟩ := hE cs.nonce ((x :: xs).take l) htake_ne htake_le
    rw [hok] at henc
    injection henc with hct
    subst hct
    obtain ⟨hdr, hfr2⟩ := frame_some_of_lt hlt
    rw [hfr2] at hfr
    exact absurd hfr (by simp)
  | case5 c n acc x xs l cs2 hsend2 pt henc c1 hdr hfr IH =>
    intro cs hsend hE
    rw [hsend] at hsend2
    injection hsend2 with hcs
    subst hcs
    have hl : l = min MaxMsgLen (x :: xs).length := rfl
    have htake_ne : (x :: xs).take l ≠ [] := by
      simp only [ne_eq, List.take_eq_nil_iff]
      push_neg
      refine ⟨?_, by simp⟩
      simp only [MaxMsgLen, List.length_cons] at hl
      omega
    have htake_le : ((x :: xs).take l).length ≤ MaxMsgLen := by
      simp only [List.length_take]
      simp only [MaxMsgLen, List.length_cons] at hl ⊢
      omega
    obtain ⟨ct, hok, hlt⟩ := hE cs.nonce ((x :: xs).take l) htake_ne htake_le
    have hpt : pt = ct := by
      rw [hok] at henc
      injection henc with h2
      exact h2.symm
    subst hpt
    have hstep : writeTransportLoop c (x :: xs) n acc =
        writeTransportLoop c1 ((x :: xs).drop l) (n + l)
          (acc ++ hdr ++ pt) := by
      conv_lhs => rw [writeTransportLoop]
      rw [hsend]
      simp only []
      rw [henc]
      simp only []
      rw [hfr]
    rw [hstep]
    have hsend1 : c1.send = some ({ cs with nonce := cs.nonce + 1 }) := rfl
    have hE1 : ∀ m p, p ≠ [] → p.length ≤ MaxMsgLen →
        ∃ ct2, ({ cs with nonce := cs.nonce + 1 } : CipherState).encAt m p =
          .ok ct2 ∧ ct2.length < 2 ^ 24 := hE
    obtain ⟨hok1, hcount1, suffix1, hout1, hdec1⟩ :=
      IH ({ cs with nonce := cs.nonce + 1 }) hsend1 hE1
    refine ⟨hok1, ?_, hdr ++ pt ++ suffix1, ?_, ?_⟩
    · rw [hcount1]
      have hll : l ≤ (x :: xs).length := Nat.min_le_right _ _
      simp only [List.length_drop]
      omega
    · rw [hout1]
      show c.outStream ++ (acc ++ hdr ++ pt) ++ suffix1 = _
      simp [List.append_assoc]
    · have hframes : decodeFrames (hdr ++ pt ++ suffix1) =
          pt :: decodeFrames suffix1 := by
        have : hdr ++ pt ++ suffix1 = (hdr ++ pt) ++ suffix1 := by
          simp [List.append_assoc]
        rw [this]
        exact decodeFrames_frame hlt (frameMsg_of_frame hfr)
      rw [hframes]
      have hchunks : chunksOf (x :: xs) =
          (x :: xs).take l :: chunksOf ((x :: xs).drop l) := by
        conv_lhs => rw [chunksOf]
      rw [hchunks]
      simp only [List.length_cons]
      omega

theorem chunksOf_ne_nil {b : List Nat} (h : b ≠ []) : chunksOf b ≠ [] := by
  match b with
  | [] => exact absurd rfl h
  | x :: xs =>
    intro hc
    rw [chunksOf] at hc
    simp at hc

theorem chunksOf_two {b : List Nat} (h : MaxMsgLen < b.length) :
    2 ≤ (chunksOf b).length := by
  match b with
  | [] => simp at h
  | x :: xs =>
    have hchunks : chunksOf (x :: xs) =
        (x :: xs).take (min MaxMsgLen (x :: xs).length) ::
          chunksOf ((x :: xs).drop (min MaxMsgLen (x :: xs).length)) := by
      conv_lhs => rw [chunksOf]
    rw [hchunks]
    have hdrop : (x :: xs).drop (min MaxMsgLen (x :: xs).length) ≠ [] := by
      simp only [ne_eq, List.drop_eq_nil_iff]
      have hml : min MaxMsgLen (x :: xs).length ≤ MaxMsgLen :=
        Nat.min_le_left _ _
      simp only [List.length_cons] at h hml ⊢
      omega
    have := chunksOf_ne_nil hdrop
    have : 0 < (chunksOf ((x :: xs).drop
        (min MaxMsgLen (x :: xs).length))).length :=
      List.length_pos.mpr this
    simp only [List.length_cons] at this ⊢
    omega

/-- C6: after the handshake, Write splits its input into chunks of at most
noise.MaxMsgLen bytes, sealing each into its own frame, so the bytes
appended to the stream decode into exactly one frame per chunk (at least
two frames whenever the input exceeds one maximum message); and a Read
that starts with empty pending plaintext returns bytes from exactly the
first decrypted frame, leaving its overflow buffered and the rest of the
stream untouched (no coalescing across frames). -/
theorem write_fragmentation_read_one_frame (M : HSModel σ) (blen : Nat) :
    (∀ (c : Conn σ) (cs : CipherState) (b : List Nat),
      c.hs = none → c.send = some cs →
      (∀ m p, p ≠ [] → p.length ≤ MaxMsgLen →
        ∃ ct, cs.encAt m p = .ok ct ∧ ct.length < 2 ^ 24) →
      (Conn.Write M c b).2.1 = .ok () ∧ (Conn.Write M c b).1 = b.length ∧
      ∃ suffix, (Conn.Write M c b).2.2.outStream = c.outStream ++ suffix ∧
        (decodeFrames suffix).length = (chunksOf b).length ∧
        (MaxMsgLen < b.length → 2 ≤ (chunksOf b).length)) ∧
    (∀ (c : Conn σ) (cs : CipherState) (msg rest pt : List Nat),
      c.hs = none → c.readBuf = [] → c.recv = some cs →
      readMsgBytes c.inStream = .ok (msg, rest) →
      cs.decAt cs.nonce msg = .ok pt → pt ≠ [] →
      Conn.Read M c blen = (.ok (pt.take (min blen pt.length)),
        { c with inStream := rest, readBuf := pt.drop (min blen pt.length), recv := some ({ cs with nonce := cs.nonce + 1 }) })) := by
  constructor
  · intro c cs b hhs hsend hE
    have hw : Conn.Write M c b = writeTransportLoop c b 0 [] := by
      unfold Conn.Write
      rw [writeHSLoop_none b 0 hhs]
    rw [hw]
    obtain ⟨hok, hcount, suffix, hout, hdec⟩ :=
      writeTransportLoop_chunks c b 0 [] cs hsend hE
    refine ⟨hok, by simpa using hcount, suffix, ?_, hdec, chunksOf_two⟩
    rw [hout]
    simp
  · intro c cs msg rest pt hhs hbuf hrecv hmsg hdec hpt
    unfold Conn.Read
    rw [handleBuffered_empty hbuf]
    have hstep : readHandshakeLoop M c blen = readTransportLoop c blen := by
      conv_lhs => rw [readHandshakeLoop]
      rw [hhs]
    rw [hstep]
    have hmc : c.readMsgC = (.ok msg, { c with inStream := rest }) := by
      unfold Conn.readMsgC
      rw [hmsg]
    have hb2 : handleBuffered blen ({ c with inStream := rest, readBuf := c.readBuf ++ pt, recv := some ({ cs with nonce := cs.nonce + 1 }) }) =
        some (pt.take (min blen pt.length),
          { c with inStream := rest, readBuf := pt.drop (min blen pt.length), recv := some ({ cs with nonce := cs.nonce + 1 }) }) := by
      unfold handleBuffered
      rw [hbuf]
      simp only [List.nil_append]
      rw [if_neg (by simpa using hpt)]
    conv_lhs => rw [readTransportLoop]
    rw [hmc]
    simp only []
    rw [hrecv]
    simp only []
    rw [hdec]
    simp only [hb2]

/-- An input one byte larger than the maximum single message. -/
def bigInput : List Nat := List.replicate (MaxMsgLen + 1) 3

/-- A post-handshake connection whose stream holds a two-byte frame
followed by a one-byte frame, decrypting through the identity cipher. -/
def connOneFrame : Conn Unit :=
  { inStream := [0x80, 0, 0, 2, 9, 9, 0x80, 0, 0, 1, 5], outStream := [],
    initiator := false, hs := none, hsResponsibility := false,
    readBuf := [], send := none, recv := some idCipher }

theorem write_fragmentation_read_one_frame_witness :
    ((Conn.Write trivialHS connSender bigInput).2.1 = .ok () ∧
     (Conn.Write trivialHS connSender bigInput).1 = bigInput.length ∧
     (∃ suffix,
        (Conn.Write trivialHS connSender bigInput).2.2.outStream =
          connSender.outStream ++ suffix ∧
        (decodeFrames suffix).length = (chunksOf bigInput).length) ∧
     2 ≤ (chunksOf bigInput).length) ∧
    Conn.Read trivialHS connOneFrame 1 =
      (.ok [9], { connOneFrame with inStream := [0x80, 0, 0, 1, 5], readBuf := [9], recv := some ({ idCipher with nonce := idCipher.nonce + 1 }) }) := by
  have hEid : ∀ m p, p ≠ [] → p.length ≤ MaxMsgLen →
      ∃ ct, idCipher.encAt m p = .ok ct ∧ ct.length < 2 ^ 24 := by
    intro m p hne hle
    refine ⟨p, rfl, ?_⟩
    simp only [MaxMsgLen] at hle
    omega
  have hlen : MaxMsgLen < bigInput.length := by
    show MaxMsgLen < (List.replicate (MaxMsgLen + 1) 3).length
    rw [List.length_replicate]
    omega
  have hA := (write_fragmentation_read_one_frame trivialHS 1).1
    connSender idCipher bigInput rfl rfl hEid
  obtain ⟨h1, h2, suffix, h3, h4, h5⟩ := hA
  have hB := (write_fragmentation_read_one_frame trivialHS 1).2
    connOneFrame idCipher [9, 9] [0x80, 0, 0, 1, 5] [9, 9]
    rfl rfl rfl rfl rfl (by decide)
  exact ⟨⟨h1, h2, ⟨suffix, h3, h4⟩, h5 hlen⟩, hB⟩
